import Mathlib

/-!
Verification of the docurag documentation crawler.

The development shallowly embeds the Python sources (`docu_crawler.py`,
`text_extractor.py`, `models.py`, with the legacy `web_crawler.py` where it
differs) into Lean: strings become `List Char`, the HTML parse tree becomes a
rose tree of element and text nodes, the HTTP transport becomes an oracle
`Str → Option Node` (`none` models a transport error caught by the per-page
handler), and the recursive crawl becomes a fuel-indexed function whose fuel
follows the `depth > max_depth` guard of the source.
-/

/-- Python strings are modelled as lists of characters. -/
abbrev Str := List Char

/-- Turns a Lean string literal into the character-list model. -/
def str (s : String) : Str := s.data

/-- The whitespace characters recognised by Python's `str.split`, `str.strip`
and friends (ASCII fragment, which covers every string the sources build). -/
def isSpaceCh (c : Char) : Bool :=
  c = ' ' || c = '\t' || c = '\n' || c = '\r' || c = '\x0b' || c = '\x0c'

/-- Python `str.strip()`: drop leading and trailing whitespace. -/
def pyStrip (s : Str) : Str :=
  ((s.dropWhile isSpaceCh).reverse.dropWhile isSpaceCh).reverse

/-- Worker for Python `str.split()` (no separator argument): `acc` holds the
characters of the word currently being read, in reverse. -/
def pySplitAux : Str → Str → List Str
  | [], acc => if acc = [] then [] else [acc.reverse]
  | c :: cs, acc =>
    if isSpaceCh c then
      if acc = [] then pySplitAux cs [] else acc.reverse :: pySplitAux cs []
    else
      pySplitAux cs (c :: acc)

/-- Python `str.split()`: split on runs of whitespace, discarding empty
pieces. -/
def pySplit (s : Str) : List Str := pySplitAux s []

/-- Python `sep.join(list)`. -/
def pyJoin (sep : Str) : List Str → Str
  | [] => []
  | [x] => x
  | x :: y :: rest => x ++ sep ++ pyJoin sep (y :: rest)

/-- Python `str.splitlines()` (line boundaries restricted to the newline and
carriage-return characters actually produced by the sources). -/
def pySplitLinesAux : Str → Str → List Str
  | [], acc => if acc = [] then [] else [acc.reverse]
  | '\r' :: '\n' :: cs, acc => acc.reverse :: pySplitLinesAux cs []
  | '\n' :: cs, acc => acc.reverse :: pySplitLinesAux cs []
  | '\r' :: cs, acc => acc.reverse :: pySplitLinesAux cs []
  | c :: cs, acc => pySplitLinesAux cs (c :: acc)

/-- Python `str.splitlines()`. -/
def pySplitLines (s : Str) : List Str := pySplitLinesAux s []

/-- One iteration of the word-packing loop of
`TextExtractor.split_text_on_words` (text_extractor.py, lines 41-54): the
state is the pair (chunks so far, current chunk). -/
def packStep (max_length : Nat) (st : List Str × Str) (word : Str) :
    List Str × Str :=
  let chunks := st.1
  let current_chunk := st.2
  if current_chunk.length + word.length + 1 > max_length then
    if current_chunk ≠ [] then (chunks ++ [pyStrip current_chunk], word)
    else (chunks ++ [word], current_chunk)
  else
    if current_chunk ≠ [] then (chunks, current_chunk ++ ' ' :: word)
    else (chunks, word)

/-- The word-packing loop followed by the final flush of the current chunk
(text_extractor.py, lines 35-58). -/
def packChunks (max_length : Nat) (words : List Str) : List Str :=
  let packed := words.foldl (packStep max_length) ([], [])
  if packed.2 ≠ [] then packed.1 ++ [pyStrip packed.2] else packed.1

/-- TextExtractor.split_text_on_words (text_extractor.py, lines 20-61):
texts not longer than `max_length` are returned unchanged, longer texts are
split into whitespace-delimited words, greedily packed, and the chunks are
joined with a blank line. -/
def split_text_on_words (text : Str) (max_length : Nat := 5000) : Str :=
  if text.length ≤ max_length then text
  else pyJoin (str "\n\n") (packChunks max_length (pySplit text))

/-- A parsed HTML node: a text node or an element with a tag, attributes and
children (the tagged union of the parse-tree capability the crawler
consumes). -/
inductive Node where
  | text : Str → Node
  | elem : Str → List (Str × Str) → List Node → Node

/-- The tag of an element node (text nodes have none). -/
def nodeTag : Node → Str
  | .text _ => []
  | .elem t _ _ => t

/-- The children of a node. -/
def childrenOf : Node → List Node
  | .text _ => []
  | .elem _ _ ch => ch

mutual
/-- All text fragments below a node, in document order. -/
def rawStrings : Node → List Str
  | .text s => [s]
  | .elem _ _ ch => rawStringsList ch
/-- All text fragments below a forest, in document order. -/
def rawStringsList : List Node → List Str
  | [] => []
  | n :: rest => rawStrings n ++ rawStringsList rest
end

/-- BeautifulSoup `get_text()`: concatenation of all text fragments. -/
def getText (n : Node) : Str := (rawStrings n).flatten

/-- BeautifulSoup `get_text(strip=True)`: strip each fragment, drop empty
ones, concatenate. -/
def getTextStripped (n : Node) : Str :=
  (((rawStrings n).map pyStrip).filter (fun s => s ≠ [])).flatten

/-- BeautifulSoup `get_text(separator='\n', strip=True)`. -/
def getTextSepNL (n : Node) : Str :=
  pyJoin (str "\n") (((rawStrings n).map pyStrip).filter (fun s => s ≠ []))

/-- The tags decomposed before extraction (text_extractor.py, line 76). -/
def noiseTags : List Str :=
  [str "script", str "style", str "nav", str "footer", str "header"]

mutual
/-- The `decompose` preprocessing of extract_text_content: script, style,
nav, footer and header elements are removed from the tree. -/
def removeNoise : Node → Node
  | .text s => .text s
  | .elem t a ch => .elem t a (removeNoiseList ch)
/-- The decompose step on a forest: noise elements are dropped, the rest cleaned
recursively (a text node's empty tag is never a noise tag). -/
def removeNoiseList : List Node → List Node
  | [] => []
  | n :: rest =>
    if nodeTag n ∈ noiseTags then removeNoiseList rest
    else removeNoise n :: removeNoiseList rest
end

mutual
/-- BeautifulSoup `find(tag)` on a node: the node itself if it is a matching
element, else its first matching descendant in pre-order. -/
def findTagNode (tag : Str) : Node → Option Node
  | .text _ => none
  | .elem t a ch =>
    if t = tag then some (.elem t a ch) else findTagList tag ch
/-- BeautifulSoup `find(tag)` over a forest: first match in pre-order
document order. -/
def findTagList (tag : Str) : List Node → Option Node
  | [] => none
  | n :: rest =>
    match findTagNode tag n with
    | some m => some m
    | none => findTagList tag rest
end

/-- The whitespace-separated class names of an element's class attribute. -/
def classesOf (attrs : List (Str × Str)) : List Str :=
  match attrs.lookup (str "class") with
  | some v => pySplit v
  | none => []

mutual
/-- BeautifulSoup `find('div', class_='content')` on a node. -/
def findDivContentNode : Node → Option Node
  | .text _ => none
  | .elem t a ch =>
    if t = str "div" ∧ str "content" ∈ classesOf a then some (.elem t a ch)
    else findDivContentList ch
/-- BeautifulSoup `find('div', class_='content')` over a forest. -/
def findDivContentList : List Node → Option Node
  | [] => none
  | n :: rest =>
    match findDivContentNode n with
    | some m => some m
    | none => findDivContentList rest
end

mutual
/-- BeautifulSoup `find_all(tags)` on a node: the node itself (when
matching) followed by its matching descendants, in pre-order. -/
def findAllTagsNode (tags : List Str) : Node → List Node
  | .text _ => []
  | .elem t a ch =>
    (if t ∈ tags then [Node.elem t a ch] else []) ++ findAllTagsList tags ch
/-- BeautifulSoup `find_all(tags)` over a forest, in pre-order document
order. -/
def findAllTagsList (tags : List Str) : List Node → List Node
  | [] => []
  | n :: rest => findAllTagsNode tags n ++ findAllTagsList tags rest
end

/-- The six heading tags (text_extractor.py, line 85). -/
def headingTags : List Str :=
  [str "h1", str "h2", str "h3", str "h4", str "h5", str "h6"]

/-- The headings that terminate a section's sibling scan
(text_extractor.py, line 104): only h1-h4, not h5 or h6. -/
def sectionStopTags : List Str :=
  [str "h1", str "h2", str "h3", str "h4"]

/-- The sibling scan of extract_text_content (text_extractor.py, lines
101-114): walk the siblings following a heading, stopping at the first
element whose tag is h1-h4, collecting each other sibling's non-empty
stripped text. -/
def collectSection : List Node → List Str
  | [] => []
  | .elem t a ch :: rest =>
    if t ∈ sectionStopTags then []
    else
      let txt := getTextStripped (.elem t a ch)
      if txt = [] then collectSection rest else txt :: collectSection rest
  | .text s :: rest =>
    let txt := pyStrip s
    if txt = [] then collectSection rest else txt :: collectSection rest

/-- One emitted section (text_extractor.py, lines 119-124): a blank line,
the heading text, then (when non-empty) a newline and the collected
content. -/
def sectionText (heading_text content_text : Str) : Str :=
  (str "\n\n") ++ heading_text ++
    (if content_text ≠ [] then (str "\n") ++ content_text else [])

/-- The section contributed by one node given the siblings that follow it:
non-empty only for headings (text_extractor.py, lines 96-124). -/
def sectionHere : Node → List Node → List Str
  | .text _, _ => []
  | .elem t a ch, rest =>
    if t ∈ headingTags then
      let heading_text := getTextStripped (.elem t a ch)
      let content_text := pyJoin (str "\n") (collectSection rest)
      if heading_text ≠ [] ∨ content_text ≠ [] then
        [sectionText heading_text content_text]
      else []
    else []

mutual
/-- The sections contributed by the headings inside one node. -/
def sectionsNode : Node → List Str
  | .text _ => []
  | .elem _ _ ch => sectionsList ch
/-- The per-heading loop of extract_text_content (lines 96-124) over a
forest: for each heading in pre-order document order, build its section from
the sibling scan of the nodes following it. -/
def sectionsList : List Node → List Str
  | [] => []
  | n :: rest => sectionHere n rest ++ sectionsNode n ++ sectionsList rest
end

/-- Main-content selection (text_extractor.py, line 80-82): prefer main,
then article, then a content-class div, else the whole soup. -/
def mainContentOf (soup : Node) : Node :=
  match findTagList (str "main") (childrenOf soup) with
  | some m => m
  | none =>
    match findTagList (str "article") (childrenOf soup) with
    | some m => m
    | none =>
      match findDivContentList (childrenOf soup) with
      | some m => m
      | none => soup

/-- The body of extract_text_content after the decompose step
(text_extractor.py, lines 79-130). -/
def extractCleaned (soup : Node) (max_length : Nat) : Str :=
  let main_content := mainContentOf soup
  let headings := findAllTagsList headingTags (childrenOf main_content)
  if headings.isEmpty then
    let text := getTextSepNL main_content
    let lines := ((pySplitLines text).map pyStrip).filter (fun l => l ≠ [])
    let content := (str "\n\n") ++ pyJoin (str "\n") lines
    split_text_on_words content max_length
  else
    let sections := sectionsList (childrenOf main_content)
    let content := if sections ≠ [] then pyJoin [] sections else str "\n\n"
    split_text_on_words content max_length

/-- TextExtractor.extract_text_content (text_extractor.py, lines 63-130). -/
def extract_text_content (soup : Node) (max_length : Nat := 5000) : Str :=
  extractCleaned (removeNoise soup) max_length

mutual
/-- Every descendant element of a node paired with the tags of its
ancestors: the shallow-embedding counterpart of find_all combined with
find_parent. -/
def elemsWithAncNode (anc : List Str) : Node → List (Node × List Str)
  | .text _ => []
  | .elem t a ch => (Node.elem t a ch, anc) :: elemsWithAncList (t :: anc) ch
/-- The ancestor-tagged descendants of a forest, in pre-order document order. -/
def elemsWithAncList (anc : List Str) : List Node → List (Node × List Str)
  | [] => []
  | n :: rest => elemsWithAncNode anc n ++ elemsWithAncList anc rest
end

/-- TextExtractor.extract_code_blocks (text_extractor.py, lines 132-165):
first the non-empty stripped get_text of every pre element, then the
non-empty stripped get_text of every code element with no pre ancestor
(`find_parent('pre')` returning None). -/
def extract_code_blocks (soup : Node) : List Str :=
  let all := elemsWithAncList [] (childrenOf soup)
  let pre_blocks :=
    ((all.filter (fun p => nodeTag p.1 = str "pre")).map
      (fun p => pyStrip (getText p.1))).filter (fun s => s ≠ [])
  let code_blocks :=
    (((all.filter (fun p => nodeTag p.1 = str "code")).filter
      (fun p => ¬ str "pre" ∈ p.2)).map
      (fun p => pyStrip (getText p.1))).filter (fun s => s ≠ [])
  pre_blocks ++ code_blocks

mutual
/-- Spec wording for the first pass of code-block extraction on a node:
every non-empty end-trimmed text of a pre element, in document order. -/
def specPreNode : Node → List Str
  | .text _ => []
  | .elem t a ch =>
    (if t = str "pre" then
      (let s := pyStrip (getText (.elem t a ch)); if s = [] then [] else [s])
     else [])
      ++ specPreList ch
/-- The spec wording of the pre pass over a forest. -/
def specPreList : List Node → List Str
  | [] => []
  | n :: rest => specPreNode n ++ specPreList rest
end

mutual
/-- Spec wording for the second pass of code-block extraction on a node:
every non-empty end-trimmed text of a code element not nested inside any
pre, in document order; the flag records whether an enclosing pre exists. -/
def specInlineNode : Bool → Node → List Str
  | _, .text _ => []
  | b, .elem t a ch =>
    (if t = str "code" ∧ b = false then
      (let s := pyStrip (getText (.elem t a ch)); if s = [] then [] else [s])
     else [])
      ++ specInlineList (b || decide (t = str "pre")) ch
/-- The spec wording of the inline pass over a forest. -/
def specInlineList : Bool → List Node → List Str
  | _, [] => []
  | b, n :: rest => specInlineNode b n ++ specInlineList b rest
end

mutual
/-- BeautifulSoup `find_all('a', href=True)` on a node, mapped to href
values (docu_crawler.py, line 133). -/
def anchorHrefsNode : Node → List Str
  | .text _ => []
  | .elem t a ch =>
    (if t = str "a" then
      match a.lookup (str "href") with
      | some h => [h]
      | none => []
     else [])
      ++ anchorHrefsList ch
/-- The href attributes of the anchors of a forest, in document order. -/
def anchorHrefsList : List Node → List Str
  | [] => []
  | n :: rest => anchorHrefsNode n ++ anchorHrefsList rest
end

/-- Python urlparse(u).netloc for URLs of the form scheme://netloc/rest (all URLs
the crawler builds carry an explicit scheme). -/
def netlocOf (u : Str) : Str :=
  ((u.dropWhile (fun c => c ≠ ':')).drop 3).takeWhile
    (fun c => ¬ (c = '/' ∨ c = '?' ∨ c = '#'))

/-- The scheme of a URL. -/
def schemeOf (u : Str) : Str := u.takeWhile (fun c => c ≠ ':')

/-- Python urljoin(base, href) for the hrefs the crawler resolves (those starting
with '/'): a protocol-relative '//host/path' keeps only the base's scheme,
any other root-relative href is resolved against the base's scheme and
netloc (dot-segment normalisation is not modelled; no example href uses
it). -/
def urljoinSlash (base href : Str) : Str :=
  if (str "//").isPrefixOf href then schemeOf base ++ (str ":") ++ href
  else (schemeOf base ++ (str "://") ++ netlocOf base) ++ href

/-- Python url.split on the fragment marker, first piece. -/
def stripFragment (u : Str) : Str := u.takeWhile (fun c => c ≠ '#')

/-- Python `str.lower()` (ASCII). -/
def pyLower (s : Str) : Str := s.map Char.toLower

/-- SKIP_EXTENSIONS (docu_crawler.py, line 24). -/
def SKIP_EXTENSIONS : List Str :=
  [str ".pdf", str ".zip", str ".jpg", str ".png", str ".gif",
   str ".css", str ".js"]

/-- DocumentationCrawler.is_valid_url (docu_crawler.py, lines 59-85): domain
check, extension filter, fragment-stripped dedup against the visited set.
The crawl loop of the source never calls this function. -/
def is_valid_url (base_domain : Str) (visited : List Str) (url : Str) : Bool :=
  if netlocOf url ≠ base_domain then false
  else if SKIP_EXTENSIONS.any (fun ext => ext.isSuffixOf (pyLower url)) then
    false
  else
    let url2 := if url.contains '#' then stripFragment url else url
    decide (url2 ∉ visited)

/-- models.CrawlerConfig restricted to the fields the crawl logic reads
(timeout, rate-limit delay and user agent only affect I/O, which the oracle
abstracts). -/
structure CrawlerConfig where
  base_url : Str
  max_depth : Nat
  max_pages : Nat

/-- models.CrawledDocument. -/
structure CrawledDocument where
  url : Str
  title : Str
  content : Str
  code_blocks : List Str
  depth : Nat
  crawled_at : Str

/-- The crawler's mutable state: the visited set (a list of pairwise
distinct URLs) and the append-only document store. -/
structure CrawlState where
  visited : List Str
  documents : List CrawledDocument

/-- The document built inside crawl_page (docu_crawler.py, lines 109-127):
the title is looked up on the soup before extract_text_content decomposes
the noise elements, and extract_code_blocks then operates on the decomposed
soup. -/
def mkDocument (crawled_at : Str) (url : Str) (depth : Nat) (soup : Node) :
    CrawledDocument :=
  let cleaned := removeNoise soup
  { url := url
    title := match findTagList (str "title") (childrenOf soup) with
      | some t => getTextStripped t
      | none => url
    content := extractCleaned cleaned 5000
    code_blocks := extract_code_blocks cleaned
    depth := depth
    crawled_at := crawled_at }

/-- DocumentationCrawler.crawl_page (docu_crawler.py, lines 87-152), indexed
by fuel: the Python recursion is cut by the `depth > max_depth` guard, so
any fuel of at least `max_depth + 1 - depth` produces the source's behaviour
(fuel-insensitivity is proved below). The oracle models the fetch-and-parse
capability; `none` is a requests.RequestException caught by the per-page
handler, which still leaves the url in the visited set because
`visited.add(url)` runs before the request. -/
def crawlPageFuel (cfg : CrawlerConfig) (oracle : Str → Option Node)
    (crawled_at : Str) : Nat → CrawlState → Str → Nat → CrawlState
  | 0, st, _, _ => st
  | fuel + 1, st, url, depth =>
    if cfg.max_depth < depth ∨ cfg.max_pages ≤ st.visited.length then st
    else if url ∈ st.visited then st
    else
      let st1 : CrawlState := { st with visited := url :: st.visited }
      match oracle url with
      | none => st1
      | some soup =>
        let doc := mkDocument crawled_at url depth soup
        let st2 : CrawlState := { st1 with documents := st1.documents ++ [doc] }
        let links := anchorHrefsList (childrenOf (removeNoise soup))
        let sub_string := url.take 20
        links.foldl
          (fun s href =>
            if sub_string.isPrefixOf href || (str "/").isPrefixOf href then
              crawlPageFuel cfg oracle crawled_at fuel s
                (if (str "/").isPrefixOf href then
                  urljoinSlash cfg.base_url href
                 else href)
                (depth + 1)
            else s)
          st2

/-- DocumentationCrawler.crawl (docu_crawler.py, lines 154-164): start at the
base URL with depth 0 and empty state. -/
def crawl (cfg : CrawlerConfig) (oracle : Str → Option Node)
    (crawled_at : Str) : CrawlState :=
  crawlPageFuel cfg oracle crawled_at (cfg.max_depth + 1) ⟨[], []⟩
    cfg.base_url 0

/-- A JSON value (the fragment needed for the serialized document
objects). -/
inductive JVal where
  | s : Str → JVal
  | n : Nat → JVal
  | arr : List JVal → JVal
  | obj : List (Str × JVal) → JVal

/-- Key lookup in a JSON object. -/
def jLookup (k : Str) : JVal → Option JVal
  | .obj fields => fields.lookup k
  | _ => none

/-- CrawledDocument.to_dict (models.py, lines 46-58): the code_blocks list
appears both top-level and inside metadata. -/
def CrawledDocument.to_dict (d : CrawledDocument) : JVal :=
  .obj [(str "url", .s d.url),
        (str "title", .s d.title),
        (str "content", .s d.content),
        (str "code_blocks", .arr (d.code_blocks.map JVal.s)),
        (str "metadata", .obj
          [(str "code_blocks", .arr (d.code_blocks.map JVal.s)),
           (str "depth", .n d.depth),
           (str "crawled_at", .s d.crawled_at)])]

/-- The document object built by the legacy crawler (web_crawler.py, lines
204-213): unlike CrawledDocument.to_dict it carries no top-level
code_blocks key, only the copy inside metadata. -/
def legacyDocumentJson (url title content : Str) (code_blocks : List Str)
    (depth : Nat) (crawled_at : Str) : JVal :=
  .obj [(str "url", .s url),
        (str "title", .s title),
        (str "content", .s content),
        (str "metadata", .obj
          [(str "code_blocks", .arr (code_blocks.map JVal.s)),
           (str "depth", .n depth),
           (str "crawled_at", .s crawled_at)])]

/-- Element-node builder for concrete example pages. -/
def el (t : String) (ch : List Node) : Node := .elem (str t) [] ch

/-- Element-node builder with attributes. -/
def elA (t : String) (attrs : List (String × String)) (ch : List Node) :
    Node :=
  .elem (str t) (attrs.map (fun p => (str p.1, str p.2))) ch

/-- Text-node builder. -/
def txt (s : String) : Node := .text (str s)

/-- Example page for the code-block extraction scenario: a pre-wrapped code
element followed by an inline code element. -/
def c6page : Node :=
  el "html" [el "body"
    [el "pre" [el "code" [txt "print(1)"]],
     el "p" [el "code" [txt "x"]]]]

/-- Example page for the heading-section scenario: an h5 between two h2
sections. -/
def c7page : Node :=
  el "html" [el "main"
    [el "h2" [txt "A"], el "p" [txt "body"], el "h5" [txt "B"],
     el "p" [txt "tail"], el "h2" [txt "C"]]]

/-- Configuration of the domain-containment counterexample crawl. -/
def c1cfg : CrawlerConfig :=
  { base_url := str "http://a.co/", max_depth := 1, max_pages := 10 }

/-- Seed page of the domain-containment counterexample: a protocol-relative
link onto another host. -/
def c1seedPage : Node :=
  el "html" [el "body" [elA "a" [("href", "//evil.com/x")] [txt "link"]]]

/-- Fetch oracle of the domain-containment counterexample. -/
def c1oracle (u : Str) : Option Node :=
  if u = str "http://a.co/" then some c1seedPage
  else if u = str "http://evil.com/x" then
    some (el "html" [el "body" [txt "page"]])
  else none

/-- Configuration of the fragment-dedup counterexample crawl. -/
def c2cfg : CrawlerConfig :=
  { base_url := str "http://a.co", max_depth := 1, max_pages := 10 }

/-- Seed page of the fragment-dedup counterexample: two fragment variants of
the same page. -/
def c2seedPage : Node :=
  el "html" [el "body"
    [elA "a" [("href", "/p#1")] [txt "one"],
     elA "a" [("href", "/p#2")] [txt "two"]]]

/-- Fetch oracle of the fragment-dedup counterexample. -/
def c2oracle (u : Str) : Option Node :=
  if u = str "http://a.co" then some c2seedPage
  else if u = str "http://a.co/p#1" then
    some (el "html" [el "body" [txt "p1"]])
  else if u = str "http://a.co/p#2" then
    some (el "html" [el "body" [txt "p2"]])
  else none

/-- Configuration of the transport-error-confinement example crawl. -/
def c8cfg : CrawlerConfig :=
  { base_url := str "http://a.co", max_depth := 2, max_pages := 10 }

/-- Seed page of the transport-error example: one failing link and one
working link. -/
def c8seedPage : Node :=
  el "html" [el "body"
    [elA "a" [("href", "/bad")] [txt "b"],
     elA "a" [("href", "/ok")] [txt "o"]]]

/-- Fetch oracle of the transport-error example: the linked page /bad raises
a transport error, /ok succeeds. -/
def c8oracle (u : Str) : Option Node :=
  if u = str "http://a.co" then some c8seedPage
  else if u = str "http://a.co/ok" then
    some (el "html" [el "body" [txt "fine"]])
  else none

theorem pySplitAux_mem (s : Str) : ∀ (acc w : Str),
    (∀ c ∈ acc, isSpaceCh c = false) → w ∈ pySplitAux s acc →
    w ≠ [] ∧ ∀ c ∈ w, isSpaceCh c = false := by
  induction s with
  | nil =>
    intro acc w hacc hw
    by_cases h : acc = []
    · simp [pySplitAux, h] at hw
    · simp only [pySplitAux, if_neg h, List.mem_singleton] at hw
      subst hw
      refine ⟨by simpa using h, ?_⟩
      intro c hc
      exact hacc c (List.mem_reverse.mp hc)
  | cons c cs ih =>
    intro acc w hacc hw
    by_cases hc : isSpaceCh c = true
    · by_cases h : acc = []
      · simp only [pySplitAux, hc, if_true, h, if_pos rfl] at hw
        exact ih [] w (by simp) hw
      · simp only [pySplitAux, hc, if_true, if_neg h, List.mem_cons] at hw
        rcases hw with hw | hw
        · subst hw
          exact ⟨by simpa using h, fun x hx => hacc x (List.mem_reverse.mp hx)⟩
        · exact ih [] w (by simp) hw
    · rw [Bool.not_eq_true] at hc
      simp only [pySplitAux, hc, Bool.false_eq_true, if_false] at hw
      refine ih (c :: acc) w ?_ hw
      intro x hx
      rcases List.mem_cons.mp hx with hx | hx
      · exact hx ▸ hc
      · exact hacc x hx

theorem pySplit_mem (s w : Str) (hw : w ∈ pySplit s) :
    w ≠ [] ∧ ∀ c ∈ w, isSpaceCh c = false :=
  pySplitAux_mem s [] w (by simp) hw

theorem pySplitAux_space_skip : ∀ (sp b : Str),
    (∀ c ∈ sp, isSpaceCh c = true) →
    pySplitAux (sp ++ b) [] = pySplitAux b [] := by
  intro sp
  induction sp with
  | nil => intro b _; rfl
  | cons c cs ih =>
    intro b hsp
    have hc : isSpaceCh c = true := hsp c (by simp)
    simp only [List.cons_append, pySplitAux, hc, if_true, if_pos rfl]
    exact ih b (fun x hx => hsp x (by simp [hx]))

theorem pySplitAux_append_sep : ∀ (a sep b acc : Str), sep ≠ [] →
    (∀ c ∈ sep, isSpaceCh c = true) →
    pySplitAux (a ++ (sep ++ b)) acc = pySplitAux a acc ++ pySplit b := by
  intro a
  induction a with
  | nil =>
    intro sep b acc hne hsp
    cases sep with
    | nil => exact absurd rfl hne
    | cons c cs =>
      have hc : isSpaceCh c = true := hsp c (by simp)
      have hskip : pySplitAux (cs ++ b) [] = pySplitAux b [] :=
        pySplitAux_space_skip cs b (fun x hx => hsp x (by simp [hx]))
      by_cases h : acc = []
      · simp [pySplitAux, hc, h, hskip, pySplit]
      · simp [pySplitAux, hc, h, hskip, pySplit]
  | cons c a' ih =>
    intro sep b acc hne hsp
    by_cases hc : isSpaceCh c = true
    · by_cases h : acc = []
      · simp only [List.cons_append, pySplitAux, hc, if_true, h, if_pos rfl,
          List.append_eq]
        exact ih sep b [] hne hsp
      · simp only [List.cons_append, pySplitAux, hc, if_true, if_neg h,
          List.cons_append, List.append_eq]
        rw [ih sep b [] hne hsp]
    · rw [Bool.not_eq_true] at hc
      simp only [List.cons_append, pySplitAux, hc, Bool.false_eq_true,
        if_false, List.append_eq]
      exact ih sep b (c :: acc) hne hsp

theorem pySplitAux_word : ∀ (w acc : Str),
    (∀ c ∈ w, isSpaceCh c = false) →
    pySplitAux w acc =
      if acc.reverse ++ w = [] then [] else [acc.reverse ++ w] := by
  intro w
  induction w with
  | nil =>
    intro acc _
    by_cases h : acc = []
    · simp [pySplitAux, h]
    · simp [pySplitAux, h]
  | cons c w' ih =>
    intro acc h
    have hc : isSpaceCh c = false := h c (by simp)
    simp only [pySplitAux, hc, Bool.false_eq_true, if_false]
    rw [ih (c :: acc) (fun x hx => h x (by simp [hx]))]
    simp

theorem pySplit_good_word (w : Str) (hne : w ≠ [])
    (hns : ∀ c ∈ w, isSpaceCh c = false) : pySplit w = [w] := by
  unfold pySplit
  rw [pySplitAux_word w [] hns]
  simp [hne]

theorem pySplitAux_space_tail : ∀ (sp : Str),
    (∀ c ∈ sp, isSpaceCh c = true) → ∀ (acc : Str),
    pySplitAux sp acc = pySplitAux [] acc := by
  intro sp
  induction sp with
  | nil => intro _ acc; rfl
  | cons c cs ih =>
    intro hsp acc
    have hc : isSpaceCh c = true := hsp c (by simp)
    have hcs := ih (fun x hx => hsp x (by simp [hx]))
    by_cases h : acc = []
    · simp [pySplitAux, hc, h, hcs []]
    · simp [pySplitAux, hc, h, hcs []]

theorem pySplitAux_append_space : ∀ (x sp acc : Str),
    (∀ c ∈ sp, isSpaceCh c = true) →
    pySplitAux (x ++ sp) acc = pySplitAux x acc := by
  intro x
  induction x with
  | nil =>
    intro sp acc hsp
    simpa using pySplitAux_space_tail sp hsp acc
  | cons c x' ih =>
    intro sp acc hsp
    by_cases hc : isSpaceCh c = true
    · by_cases h : acc = []
      · simp only [List.cons_append, pySplitAux, hc, if_true, h, if_pos rfl,
          List.append_eq]
        rw [ih sp [] hsp]
      · simp only [List.cons_append, pySplitAux, hc, if_true, if_neg h,
          List.append_eq]
        rw [ih sp [] hsp]
    · rw [Bool.not_eq_true] at hc
      simp only [List.cons_append, pySplitAux, hc, Bool.false_eq_true,
        if_false, List.append_eq]
      exact ih sp (c :: acc) hsp

theorem pySplit_strip (s : Str) : pySplit (pyStrip s) = pySplit s := by
  have h1 : pySplit s = pySplit (s.dropWhile isSpaceCh) := by
    conv_lhs =>
      rw [show s = s.takeWhile isSpaceCh ++ s.dropWhile isSpaceCh from
        (List.takeWhile_append_dropWhile isSpaceCh s).symm]
    exact pySplitAux_space_skip _ _ (fun c hc => List.mem_takeWhile_imp hc)
  set t := s.dropWhile isSpaceCh with ht
  have hrepr : t = (t.reverse.dropWhile isSpaceCh).reverse ++
      (t.reverse.takeWhile isSpaceCh).reverse := by
    conv_lhs =>
      rw [← List.reverse_reverse t,
        show t.reverse = t.reverse.takeWhile isSpaceCh ++
            t.reverse.dropWhile isSpaceCh from
          (List.takeWhile_append_dropWhile isSpaceCh t.reverse).symm]
    rw [List.reverse_append]
  have h2 : pySplit ((t.reverse.dropWhile isSpaceCh).reverse) = pySplit t := by
    conv_rhs => rw [hrepr]
    exact (pySplitAux_append_space _ _ _
      (fun c hc => List.mem_takeWhile_imp (List.mem_reverse.mp hc))).symm
  calc pySplit (pyStrip s)
      = pySplit ((t.reverse.dropWhile isSpaceCh).reverse) := rfl
    _ = pySplit t := h2
    _ = pySplit s := h1.symm

theorem pySplit_append_sep (a sep b : Str) (hne : sep ≠ [])
    (hsp : ∀ c ∈ sep, isSpaceCh c = true) :
    pySplit (a ++ (sep ++ b)) = pySplit a ++ pySplit b :=
  pySplitAux_append_sep a sep b [] hne hsp

theorem pySplit_pyJoin (sep : Str) (hne : sep ≠ [])
    (hsp : ∀ c ∈ sep, isSpaceCh c = true) :
    ∀ chunks : List Str,
    pySplit (pyJoin sep chunks) = (chunks.map pySplit).flatten := by
  intro chunks
  induction chunks with
  | nil => simp [pyJoin, pySplit, pySplitAux]
  | cons x xs ih =>
    cases xs with
    | nil => simp [pyJoin]
    | cons y rest =>
      simp only [pyJoin, List.map_cons, List.flatten_cons]
      rw [List.append_assoc, pySplit_append_sep x sep _ hne hsp, ih]
      simp

theorem packStep_words (max_length : Nat) (chunks : List Str)
    (current w : Str) (hw : w ≠ [])
    (hwns : ∀ c ∈ w, isSpaceCh c = false) :
    ((packStep max_length (chunks, current) w).1.map pySplit).flatten ++
        pySplit (packStep max_length (chunks, current) w).2
      = (chunks.map pySplit).flatten ++ pySplit current ++ [w] := by
  have hsw : pySplit w = [w] := pySplit_good_word w hw hwns
  have hnil : pySplit ([] : Str) = [] := rfl
  unfold packStep
  by_cases hover : current.length + w.length + 1 > max_length
  · rw [if_pos hover]
    by_cases hcur : current ≠ []
    · rw [if_pos hcur]
      simp [hsw, pySplit_strip]
    · rw [if_neg hcur]
      have hc : current = [] := by simpa using hcur
      subst hc
      simp [hsw, hnil]
  · rw [if_neg hover]
    by_cases hcur : current ≠ []
    · rw [if_pos hcur]
      have hrw : current ++ ' ' :: w = current ++ ([' '] ++ w) := by simp
      simp only [hrw]
      rw [pySplit_append_sep current [' '] w (by simp)
        (by intro c hc; simp at hc; subst hc; rfl)]
      simp [hsw]
    · rw [if_neg hcur]
      have hc : current = [] := by simpa using hcur
      subst hc
      simp [hsw, hnil]

theorem packStep_fold (max_length : Nat) :
    ∀ (ws : List Str),
    (∀ w ∈ ws, w ≠ [] ∧ ∀ c ∈ w, isSpaceCh c = false) →
    ∀ (chunks : List Str) (current : Str),
    ((ws.foldl (packStep max_length) (chunks, current)).1.map pySplit).flatten
        ++ pySplit (ws.foldl (packStep max_length) (chunks, current)).2
      = (chunks.map pySplit).flatten ++ pySplit current ++ ws := by
  intro ws
  induction ws with
  | nil => intro _ chunks current; simp
  | cons w ws' ih =>
    intro hgood chunks current
    obtain ⟨hw, hwns⟩ := hgood w (by simp)
    have hws' := fun x hx => hgood x (List.mem_cons_of_mem w hx)
    simp only [List.foldl_cons]
    have hstep := packStep_words max_length chunks current w hw hwns
    calc ((ws'.foldl (packStep max_length)
            (packStep max_length (chunks, current) w)).1.map pySplit).flatten
          ++ pySplit (ws'.foldl (packStep max_length)
            (packStep max_length (chunks, current) w)).2
        = ((packStep max_length (chunks, current) w).1.map pySplit).flatten
            ++ pySplit (packStep max_length (chunks, current) w).2 ++ ws' := by
          rw [show packStep max_length (chunks, current) w =
            ((packStep max_length (chunks, current) w).1,
             (packStep max_length (chunks, current) w).2) from rfl] at *
          exact ih hws' _ _
      _ = (chunks.map pySplit).flatten ++ pySplit current ++ [w] ++ ws' := by
          rw [hstep]
      _ = (chunks.map pySplit).flatten ++ pySplit current ++ (w :: ws') := by
          simp

theorem packChunks_words (max_length : Nat) (ws : List Str)
    (hgood : ∀ w ∈ ws, w ≠ [] ∧ ∀ c ∈ w, isSpaceCh c = false) :
    ((packChunks max_length ws).map pySplit).flatten = ws := by
  unfold packChunks
  have h := packStep_fold max_length ws hgood [] []
  simp only [List.map_nil, List.flatten_nil, List.nil_append] at h
  rw [show pySplit ([] : Str) = [] from rfl] at h
  simp only [List.nil_append] at h
  set packed := ws.foldl (packStep max_length) ([], []) with hp
  by_cases h2 : packed.2 ≠ []
  · rw [if_pos h2]
    simp only [List.map_append, List.flatten_append, List.map_cons,
      List.map_nil, List.flatten_cons, List.flatten_nil, List.append_nil]
    rw [pySplit_strip]
    exact h
  · rw [if_neg h2]
    have hc : packed.2 = [] := by simpa using h2
    rw [hc, show pySplit ([] : Str) = [] from rfl] at h
    simpa using h

theorem split_words_eq (text : Str) (max_length : Nat) :
    pySplit (split_text_on_words text max_length) = pySplit text := by
  unfold split_text_on_words
  by_cases hlen : text.length ≤ max_length
  · rw [if_pos hlen]
  · rw [if_neg hlen]
    rw [pySplit_pyJoin (str "\n\n") (by simp [str])
      (by intro c hc; simp [str] at hc; subst hc; rfl)]
    exact packChunks_words max_length (pySplit text)
      (fun w hw => pySplit_mem text w hw)

/-- C4: for every input text and every `max_length`, the multiset of
whitespace-delimited words of `split_text_on_words text max_length` (splitting
the output on whitespace, which absorbs the blank-line join separators) equals
the multiset of whitespace-delimited words of the input text: no word is
dropped, duplicated, or altered. -/
theorem chunker_preserves_word_multiset (text : Str) (max_length : Nat) :
    (↑(pySplit (split_text_on_words text max_length)) : Multiset Str)
      = ↑(pySplit text) := by
  rw [split_words_eq]

/-- C5: the chunker is idempotent: re-chunking an already chunked text with
the same `max_length` returns it unchanged. -/
theorem chunker_idempotent (text : Str) (max_length : Nat) :
    split_text_on_words (split_text_on_words text max_length) max_length
      = split_text_on_words text max_length := by
  by_cases htext : text.length ≤ max_length
  · simp [split_text_on_words, htext]
  · set out := split_text_on_words text max_length with hout
    by_cases hlen : out.length ≤ max_length
    · rw [split_text_on_words, if_pos hlen]
    · rw [split_text_on_words, if_neg hlen]
      rw [show pySplit out = pySplit text from split_words_eq text max_length]
      rw [hout, split_text_on_words, if_neg htext]

theorem nodeTag_elem (t : Str) (a : List (Str × Str)) (ch : List Node) :
    nodeTag (Node.elem t a ch) = t := rfl

theorem nodeTag_text (s : Str) : nodeTag (Node.text s) = [] := rfl

mutual
theorem specPreNode_eq : ∀ (anc : List Str) (n : Node),
    (((elemsWithAncNode anc n).filter (fun p => nodeTag p.1 = str "pre")).map
      (fun p => pyStrip (getText p.1))).filter (fun s => s ≠ [])
      = specPreNode n
  | anc, .text s => by
      simp [elemsWithAncNode, specPreNode]
  | anc, .elem t a ch => by
      by_cases ht : t = str "pre"
      · subst ht
        have hrec := specPreList_eq (str "pre" :: anc) ch
        simp only [ne_eq, decide_not] at hrec
        by_cases hs : pyStrip (getText (Node.elem (str "pre") a ch)) = [] <;>
          simp [elemsWithAncNode, specPreNode, List.filter_cons, nodeTag_elem,
            hs, hrec]
      · have hrec := specPreList_eq (t :: anc) ch
        simp only [ne_eq, decide_not] at hrec
        simp [elemsWithAncNode, specPreNode, List.filter_cons, nodeTag_elem,
          ht, hrec]
theorem specPreList_eq : ∀ (anc : List Str) (l : List Node),
    (((elemsWithAncList anc l).filter (fun p => nodeTag p.1 = str "pre")).map
      (fun p => pyStrip (getText p.1))).filter (fun s => s ≠ [])
      = specPreList l
  | anc, [] => by simp [elemsWithAncList, specPreList]
  | anc, n :: rest => by
      simp only [elemsWithAncList, specPreList, List.filter_append,
        List.map_append]
      rw [specPreNode_eq anc n, specPreList_eq anc rest]
end

mutual
theorem specInlineNode_eq : ∀ (anc : List Str) (b : Bool) (n : Node),
    (str "pre" ∈ anc ↔ b = true) →
    ((((elemsWithAncNode anc n).filter
        (fun p => nodeTag p.1 = str "code")).filter
      (fun p => ¬ str "pre" ∈ p.2)).map
      (fun p => pyStrip (getText p.1))).filter (fun s => s ≠ [])
      = specInlineNode b n
  | anc, b, .text s => fun _ => by simp [elemsWithAncNode, specInlineNode]
  | anc, b, .elem t a ch => fun hb => by
      have hch : str "pre" ∈ (t :: anc) ↔ (b || decide (t = str "pre")) = true := by
        constructor
        · intro h
          rcases List.mem_cons.mp h with h | h
          · have hd : decide (t = str "pre") = true := by
              rw [decide_eq_true_eq]
              exact h.symm
            rw [hd, Bool.or_true]
          · rw [hb.mp h, Bool.true_or]
        · intro h
          by_cases ht2 : t = str "pre"
          · rw [ht2]
            exact List.mem_cons_self _ _
          · have hd : decide (t = str "pre") = false := by
              rw [decide_eq_false_iff_not]
              exact ht2
            rw [hd, Bool.or_false] at h
            exact List.mem_cons_of_mem t (hb.mpr h)
      have hrec := specInlineList_eq (t :: anc) (b || decide (t = str "pre"))
        ch hch
      simp only [ne_eq, decide_not, List.filter_filter, Bool.true_or,
        Bool.false_or] at hrec
      by_cases ht : t = str "code"
      · subst ht
        by_cases hpre : str "pre" ∈ anc
        · have hbt : b = true := hb.mp hpre
          subst hbt
          simp [elemsWithAncNode, specInlineNode, List.filter_cons,
            nodeTag_elem, hpre, hrec]
        · have hbf : b = false := by
            cases b with
            | false => rfl
            | true => exact absurd (hb.mpr rfl) hpre
          subst hbf
          by_cases hs : pyStrip (getText (Node.elem (str "code") a ch)) = [] <;>
            simp [elemsWithAncNode, specInlineNode, List.filter_cons,
              nodeTag_elem, hpre, hs, hrec]
      · simp [elemsWithAncNode, specInlineNode, List.filter_cons,
          nodeTag_elem, ht, hrec]
theorem specInlineList_eq : ∀ (anc : List Str) (b : Bool) (l : List Node),
    (str "pre" ∈ anc ↔ b = true) →
    ((((elemsWithAncList anc l).filter
        (fun p => nodeTag p.1 = str "code")).filter
      (fun p => ¬ str "pre" ∈ p.2)).map
      (fun p => pyStrip (getText p.1))).filter (fun s => s ≠ [])
      = specInlineList b l
  | anc, b, [] => fun _ => by simp [elemsWithAncList, specInlineList]
  | anc, b, n :: rest => fun hb => by
      simp only [elemsWithAncList, specInlineList, List.filter_append,
        List.map_append]
      rw [specInlineNode_eq anc b n hb, specInlineList_eq anc b rest hb]
end

/-- C6: code-block extraction returns first every non-empty end-trimmed text
of a pre element in document order, then every non-empty end-trimmed text of
a code element not nested inside any pre, in document order; a code element
inside a pre never contributes a separate entry, and the concrete page with
a pre-wrapped print statement followed by an inline code element yields
exactly ["print(1)", "x"]. -/
theorem code_block_extraction_spec :
    (∀ soup : Node,
      extract_code_blocks soup =
        specPreList (childrenOf soup)
          ++ specInlineList false (childrenOf soup))
    ∧ extract_code_blocks c6page = [str "print(1)", str "x"] := by
  constructor
  · intro soup
    show _ ++ _ = _
    rw [specPreList_eq [] (childrenOf soup),
      specInlineList_eq [] false (childrenOf soup) (by simp)]
  · decide

/-- C7: the sibling scan collecting a heading's section content stops only
at a following sibling whose tag is h1-h4; an h5 or h6 sibling does not
terminate the scan and its text is collected into the preceding section's
content, as the concrete page with an h5 between two h2 sections shows. -/
theorem heading_scan_h5_h6 :
    (∀ (t : Str) (a : List (Str × Str)) (ch rest : List Node),
      t = str "h5" ∨ t = str "h6" →
      collectSection (Node.elem t a ch :: rest) =
        (if getTextStripped (Node.elem t a ch) = [] then collectSection rest
         else getTextStripped (Node.elem t a ch) :: collectSection rest))
    ∧ (∀ (t : Str) (a : List (Str × Str)) (ch rest : List Node),
      t ∈ sectionStopTags → collectSection (Node.elem t a ch :: rest) = [])
    ∧ extract_text_content c7page
        = str "\n\nA\nbody\nB\ntail\n\nB\ntail\n\nC" := by
  refine ⟨?_, ?_, by decide⟩
  · intro t a ch rest h
    rcases h with rfl | rfl <;>
      · simp only [collectSection]
        rw [if_neg (by decide)]
  · intro t a ch rest h
    simp only [collectSection]
    rw [if_pos h]

/-- Witness for the heading-scan theorem at concrete inputs: an h5 sibling
is collected, an h1 sibling terminates the scan. -/
theorem heading_scan_h5_h6_witness :
    collectSection [Node.elem (str "h5") [] [Node.text (str "B")],
      Node.elem (str "h2") [] []] = [str "B"]
    ∧ collectSection [Node.elem (str "h1") [] [], Node.text (str "x")]
        = [] := by
  constructor
  · rw [heading_scan_h5_h6.1 (str "h5") [] [Node.text (str "B")]
      [Node.elem (str "h2") [] []] (Or.inl rfl)]
    decide
  · exact heading_scan_h5_h6.2.1 (str "h1") [] [] [Node.text (str "x")]
      (by decide)

theorem foldl_preserve {α β : Type} (P : α → Prop) (f : α → β → α)
    (h : ∀ a b, P a → P (f a b)) :
    ∀ (l : List β) (a : α), P a → P (l.foldl f a)
  | [], _, ha => ha
  | b :: l, a, ha => foldl_preserve P f h l (f a b) (h a b ha)

theorem foldl_congr_fn {α β : Type} (f g : α → β → α)
    (h : ∀ a b, f a b = g a b) :
    ∀ (l : List β) (a : α), l.foldl f a = l.foldl g a
  | [], _ => rfl
  | b :: l, a => by
      rw [List.foldl_cons, List.foldl_cons, h, foldl_congr_fn f g h l]

theorem crawlPage_preserve (cfg : CrawlerConfig) (oracle : Str → Option Node)
    (ts : Str) (P : CrawlState → Prop)
    (hnone : ∀ st url depth,
      ¬ (cfg.max_depth < depth ∨ cfg.max_pages ≤ st.visited.length) →
      url ∉ st.visited → P st → P { st with visited := url :: st.visited })
    (hsome : ∀ st url depth soup,
      ¬ (cfg.max_depth < depth ∨ cfg.max_pages ≤ st.visited.length) →
      url ∉ st.visited → oracle url = some soup → P st →
      P { visited := url :: st.visited,
          documents := st.documents ++ [mkDocument ts url depth soup] }) :
    ∀ (fuel : Nat) (st : CrawlState) (url : Str) (depth : Nat),
    P st → P (crawlPageFuel cfg oracle ts fuel st url depth) := by
  intro fuel
  induction fuel with
  | zero => intro st url depth hP; exact hP
  | succ fuel ih =>
    intro st url depth hP
    simp only [crawlPageFuel]
    by_cases h1 : cfg.max_depth < depth ∨ cfg.max_pages ≤ st.visited.length
    · rw [if_pos h1]; exact hP
    · rw [if_neg h1]
      by_cases h2 : url ∈ st.visited
      · rw [if_pos h2]; exact hP
      · rw [if_neg h2]
        cases horacle : oracle url with
        | none => exact hnone st url depth h1 h2 hP
        | some soup =>
          refine foldl_preserve P _ ?_ _ _
            (hsome st url depth soup h1 h2 horacle hP)
          intro s href hs
          dsimp only
          by_cases hcond :
              ((url.take 20).isPrefixOf href
                || (str "/").isPrefixOf href) = true
          · rw [if_pos hcond]
            exact ih _ _ _ hs
          · rw [if_neg hcond]
            exact hs

theorem crawlPage_early (cfg : CrawlerConfig) (oracle : Str → Option Node)
    (ts : Str) :
    ∀ (f : Nat) (st : CrawlState) (url : Str) (depth : Nat),
    (cfg.max_depth < depth ∨ cfg.max_pages ≤ st.visited.length ∨
      url ∈ st.visited) →
    crawlPageFuel cfg oracle ts f st url depth = st := by
  intro f st url depth h
  cases f with
  | zero => rfl
  | succ f =>
    simp only [crawlPageFuel]
    by_cases h1 : cfg.max_depth < depth ∨ cfg.max_pages ≤ st.visited.length
    · rw [if_pos h1]
    · rw [if_neg h1]
      have h2 : url ∈ st.visited := by
        rcases h with h | h | h
        · exact absurd (Or.inl h) h1
        · exact absurd (Or.inr h) h1
        · exact h
      rw [if_pos h2]

theorem crawlPage_fuel_eq (cfg : CrawlerConfig) (oracle : Str → Option Node)
    (ts : Str) :
    ∀ (k depth : Nat), cfg.max_depth + 1 ≤ k + depth →
    ∀ (f g : Nat), cfg.max_depth + 1 ≤ f + depth →
    cfg.max_depth + 1 ≤ g + depth →
    ∀ (st : CrawlState) (url : Str),
    crawlPageFuel cfg oracle ts f st url depth
      = crawlPageFuel cfg oracle ts g st url depth := by
  intro k
  induction k with
  | zero =>
    intro depth hk f g hf hg st url
    have hd : cfg.max_depth < depth := by omega
    rw [crawlPage_early cfg oracle ts f st url depth (Or.inl hd),
      crawlPage_early cfg oracle ts g st url depth (Or.inl hd)]
  | succ k ih =>
    intro depth hk f g hf hg st url
    by_cases hd : cfg.max_depth < depth
    · rw [crawlPage_early cfg oracle ts f st url depth (Or.inl hd),
        crawlPage_early cfg oracle ts g st url depth (Or.inl hd)]
    · obtain ⟨f', rfl⟩ : ∃ f', f = f' + 1 := ⟨f - 1, by omega⟩
      obtain ⟨g', rfl⟩ : ∃ g', g = g' + 1 := ⟨g - 1, by omega⟩
      simp only [crawlPageFuel]
      by_cases h1 : cfg.max_depth < depth ∨ cfg.max_pages ≤ st.visited.length
      · rw [if_pos h1, if_pos h1]
      · rw [if_neg h1, if_neg h1]
        by_cases h2 : url ∈ st.visited
        · rw [if_pos h2, if_pos h2]
        · rw [if_neg h2, if_neg h2]
          cases horacle : oracle url with
          | none => rfl
          | some soup =>
            refine foldl_congr_fn _ _ ?_ _ _
            intro s href
            dsimp only
            by_cases hcond :
                ((url.take 20).isPrefixOf href
                  || (str "/").isPrefixOf href) = true
            · rw [if_pos hcond, if_pos hcond]
              exact ih (depth + 1) (by omega) f' g' (by omega) (by omega) s _
            · rw [if_neg hcond, if_neg hcond]

theorem crawlPage_step_some (cfg : CrawlerConfig) (oracle : Str → Option Node)
    (ts : Str) (fuel : Nat) (st : CrawlState) (url : Str) (depth : Nat)
    (soup : Node)
    (h1 : ¬ (cfg.max_depth < depth ∨ cfg.max_pages ≤ st.visited.length))
    (h2 : url ∉ st.visited) (hor : oracle url = some soup) :
    crawlPageFuel cfg oracle ts (fuel + 1) st url depth
      = (anchorHrefsList (childrenOf (removeNoise soup))).foldl
          (fun s href =>
            if (url.take 20).isPrefixOf href || (str "/").isPrefixOf href then
              crawlPageFuel cfg oracle ts fuel s
                (if (str "/").isPrefixOf href then
                  urljoinSlash cfg.base_url href
                 else href)
                (depth + 1)
            else s)
          { visited := url :: st.visited,
            documents := st.documents ++ [mkDocument ts url depth soup] } := by
  simp only [crawlPageFuel]
  rw [if_neg h1, if_neg h2, hor]

/-- C1 fails on the code: crawl_page never calls is_valid_url, so the
20-character-prefix/root-relative link heuristic admits off-domain URLs.
On the concrete oracle, the seed page's protocol-relative href resolves to
another host and the crawl records a document whose netloc differs from the
seed's. -/
theorem crawl_leaves_seed_domain :
    ((crawl c1cfg c1oracle (str "t")).documents.map
        (fun d => netlocOf d.url))
      = [str "a.co", str "evil.com"]
    ∧ netlocOf c1cfg.base_url = str "a.co"
    ∧ str "evil.com" ≠ str "a.co" :=
  ⟨by decide, by decide, by decide⟩

/-- Counterexample to C2 as stated: two fragment variants of the same page
are both crawled (crawl_page deduplicates on the full URL string and never
calls is_valid_url), so the fragment-stripped source URLs of the documents
are not pairwise distinct. -/
theorem fragment_dedup_fails :
    ¬ (((crawl c2cfg c2oracle (str "t")).documents.map
        (fun d => stripFragment d.url)).Nodup) := by decide

/-- C2 amended: the dedup invariant the code does maintain — no two
documents share an identical (un-stripped) URL string, because crawl_page
checks and records full URLs in the visited set before fetching. -/
theorem crawl_urls_nodup (cfg : CrawlerConfig) (oracle : Str → Option Node)
    (ts : Str) :
    ((crawl cfg oracle ts).documents.map (fun d => d.url)).Nodup := by
  have h := crawlPage_preserve cfg oracle ts
    (fun st => ((st.documents.map (fun d => d.url)).Nodup ∧
      ∀ d ∈ st.documents, d.url ∈ st.visited))
    (by
      intro st url depth _ _ hP
      exact ⟨hP.1, fun d hd => List.mem_cons_of_mem url (hP.2 d hd)⟩)
    (by
      intro st url depth soup _ hvis _ hP
      constructor
      · rw [List.map_append]
        refine List.Nodup.append hP.1 (List.nodup_singleton _) ?_
        intro x hx hx2
        simp only [List.map_cons, List.map_nil, List.mem_singleton] at hx2
        subst hx2
        obtain ⟨d, hd, hdu⟩ := List.mem_map.mp hx
        exact hvis (hdu ▸ hP.2 d hd)
      · intro d hd
        rcases List.mem_append.mp hd with hd | hd
        · exact List.mem_cons_of_mem url (hP.2 d hd)
        · rw [List.mem_singleton] at hd
          subst hd
          exact List.mem_cons_self _ _)
    (cfg.max_depth + 1) ⟨[], []⟩ cfg.base_url 0 (by simp)
  simpa [crawl] using h.1

/-- C3: for every completed crawl with max_pages ≥ 1 and any fetch oracle,
the number of recorded documents is at most max_pages and every document's
recorded depth is at most max_depth. -/
theorem crawl_budget_and_depth (cfg : CrawlerConfig)
    (oracle : Str → Option Node) (ts : Str) (hpages : 1 ≤ cfg.max_pages) :
    (crawl cfg oracle ts).documents.length ≤ cfg.max_pages
    ∧ ∀ d ∈ (crawl cfg oracle ts).documents, d.depth ≤ cfg.max_depth := by
  have h := crawlPage_preserve cfg oracle ts
    (fun st => st.documents.length ≤ st.visited.length ∧
      st.visited.length ≤ cfg.max_pages ∧
      ∀ d ∈ st.documents, d.depth ≤ cfg.max_depth)
    (by
      intro st url depth hg _ hP
      obtain ⟨hlen, hmax, hdep⟩ := hP
      push_neg at hg
      refine ⟨?_, ?_, hdep⟩
      · simp only [List.length_cons]
        omega
      · simp only [List.length_cons]
        omega)
    (by
      intro st url depth soup hg _ _ hP
      obtain ⟨hlen, hmax, hdep⟩ := hP
      push_neg at hg
      refine ⟨?_, ?_, ?_⟩
      · simp only [List.length_append, List.length_cons, List.length_nil]
        omega
      · simp only [List.length_cons]
        omega
      · intro d hd
        rcases List.mem_append.mp hd with hd | hd
        · exact hdep d hd
        · rw [List.mem_singleton] at hd
          subst hd
          show depth ≤ cfg.max_depth
          omega)
    (cfg.max_depth + 1) ⟨[], []⟩ cfg.base_url 0 (by simp)
  refine ⟨le_trans h.1 h.2.1, ?_⟩
  simpa [crawl] using h.2.2

/-- Witness for the budget-and-depth theorem at a concrete crawl. -/
theorem crawl_budget_and_depth_witness :
    (crawl c8cfg c8oracle (str "t")).documents.length ≤ c8cfg.max_pages
    ∧ ∀ d ∈ (crawl c8cfg c8oracle (str "t")).documents,
        d.depth ≤ c8cfg.max_depth :=
  crawl_budget_and_depth c8cfg c8oracle (str "t") (by decide)

/-- C8: when the seed fetch succeeds, the crawl returns with the seed's
document first in the store, whatever transport errors the other pages
raise; every recorded document comes from a successful fetch, so a failing
linked page contributes no document (and, its branch returning immediately,
no links). -/
theorem transport_error_confined (cfg : CrawlerConfig)
    (oracle : Str → Option Node) (ts : Str) (soup : Node)
    (hseed : oracle cfg.base_url = some soup) (hpages : 1 ≤ cfg.max_pages) :
    (∃ rest, (crawl cfg oracle ts).documents
        = mkDocument ts cfg.base_url 0 soup :: rest)
    ∧ ∀ d ∈ (crawl cfg oracle ts).documents,
        (oracle d.url).isSome = true := by
  constructor
  · have hpres := crawlPage_preserve cfg oracle ts
      (fun st => ∃ rest,
        st.documents = mkDocument ts cfg.base_url 0 soup :: rest)
      (by intro st url depth _ _ hP; exact hP)
      (by
        intro st url depth soup2 _ _ _ hP
        obtain ⟨rest, hr⟩ := hP
        exact ⟨rest ++ [mkDocument ts url depth soup2], by simp [hr]⟩)
    rw [show crawl cfg oracle ts
        = crawlPageFuel cfg oracle ts (cfg.max_depth + 1) ⟨[], []⟩
            cfg.base_url 0 from rfl,
      crawlPage_step_some cfg oracle ts cfg.max_depth ⟨[], []⟩ cfg.base_url
        0 soup (by simp; omega) (by simp) hseed]
    refine foldl_preserve
      (fun (st : CrawlState) => ∃ rest,
        st.documents = mkDocument ts cfg.base_url 0 soup :: rest)
      _ ?_ _ _ ⟨[], rfl⟩
    intro s href hs
    dsimp only
    by_cases hcond :
        ((cfg.base_url.take 20).isPrefixOf href
          || (str "/").isPrefixOf href) = true
    · rw [if_pos hcond]
      exact hpres _ _ _ _ hs
    · rw [if_neg hcond]
      exact hs
  · have h2 := crawlPage_preserve cfg oracle ts
      (fun st => ∀ d ∈ st.documents, (oracle d.url).isSome = true)
      (by intro st url depth _ _ hP; exact hP)
      (by
        intro st url depth soup2 _ _ hor hP
        intro d hd
        rcases List.mem_append.mp hd with hd | hd
        · exact hP d hd
        · rw [List.mem_singleton] at hd
          subst hd
          show (oracle url).isSome = true
          rw [hor]
          rfl)
      (cfg.max_depth + 1) ⟨[], []⟩ cfg.base_url 0 (by simp)
    simpa [crawl] using h2

/-- Witness for the transport-error theorem: on the concrete oracle the
linked page /bad fails, yet the seed document heads the result and every
recorded document has a successful fetch. -/
theorem transport_error_confined_witness :
    (∃ rest, (crawl c8cfg c8oracle (str "t")).documents
        = mkDocument (str "t") c8cfg.base_url 0 c8seedPage :: rest)
    ∧ ∀ d ∈ (crawl c8cfg c8oracle (str "t")).documents,
        (c8oracle d.url).isSome = true :=
  transport_error_confined c8cfg c8oracle (str "t") c8seedPage rfl
    (by decide)

/-- C9: the walk terminates and its recursion is bounded by the depth
guard — the result is insensitive to any fuel of at least
max_depth + 1 - depth, and a visit returns the state unchanged as soon as
the depth exceeds max_depth, the page budget is exhausted, or the URL was
already visited. -/
theorem crawl_terminates :
    (∀ (cfg : CrawlerConfig) (oracle : Str → Option Node) (ts : Str)
      (f g : Nat) (st : CrawlState) (url : Str) (depth : Nat),
      cfg.max_depth + 1 ≤ f + depth → cfg.max_depth + 1 ≤ g + depth →
      crawlPageFuel cfg oracle ts f st url depth
        = crawlPageFuel cfg oracle ts g st url depth)
    ∧ (∀ (cfg : CrawlerConfig) (oracle : Str → Option Node) (ts : Str)
      (f : Nat) (st : CrawlState) (url : Str) (depth : Nat),
      cfg.max_depth < depth ∨ cfg.max_pages ≤ st.visited.length ∨
        url ∈ st.visited →
      crawlPageFuel cfg oracle ts f st url depth = st) := by
  constructor
  · intro cfg oracle ts f g st url depth hf hg
    exact crawlPage_fuel_eq cfg oracle ts f depth hf f g hf hg st url
  · intro cfg oracle ts f st url depth h
    exact crawlPage_early cfg oracle ts f st url depth h

/-- Witness for the termination theorem: surplus fuel does not change the
concrete crawl, and a visit beyond max_depth returns the state unchanged. -/
theorem crawl_terminates_witness :
    crawlPageFuel c1cfg c1oracle (str "t") 7 ⟨[], []⟩ (str "http://a.co/") 0
      = crawlPageFuel c1cfg c1oracle (str "t") 2 ⟨[], []⟩
          (str "http://a.co/") 0
    ∧ crawlPageFuel c1cfg c1oracle (str "t") 5 ⟨[], []⟩
        (str "http://a.co/") 9 = ⟨[], []⟩ :=
  ⟨crawl_terminates.1 c1cfg c1oracle (str "t") 7 2 ⟨[], []⟩
      (str "http://a.co/") 0 (by decide) (by decide),
   crawl_terminates.2 c1cfg c1oracle (str "t") 5 ⟨[], []⟩
      (str "http://a.co/") 9 (Or.inl (by decide))⟩

/-- Counterexample to C10 as stated: the document object built by the
legacy crawler web_crawler.py has no top-level code_blocks key. -/
theorem legacy_no_top_code_blocks :
    jLookup (str "code_blocks")
      (legacyDocumentJson (str "u") (str "t") (str "c") [str "x"] 0
        (str "now"))
      = none := rfl

/-- C10 amended: documents serialized through CrawledDocument.to_dict (the
package pipeline) do carry a top-level code_blocks field equal to the copy
nested in metadata; the legacy web_crawler.py serializer omits the
top-level copy. -/
theorem to_dict_code_blocks (d : CrawledDocument) :
    jLookup (str "code_blocks") d.to_dict
        = some (JVal.arr (d.code_blocks.map JVal.s))
    ∧ (match jLookup (str "metadata") d.to_dict with
        | some m => jLookup (str "code_blocks") m
        | none => none)
        = some (JVal.arr (d.code_blocks.map JVal.s)) :=
  ⟨rfl, rfl⟩
